import Mathlib

/-!
# Verification of the iceminus file-redaction tool

A shallow embedding of `main.go` of the iceminus repository.  The program
scans files for lines containing sensitive words and neutralizes matching
lines by prepending the comment marker.

Strings are modeled as lists of characters (`Str`).  For valid UTF-8 data,
substring containment, the leading `#` test and the trailing newline test
coincide at the byte and at the character level, so `List Char` is a faithful
model of Go's byte strings for everything the program inspects.

The filesystem-replacement protocol of `processFile` (lines 224-270 of
`main.go`) is embedded as a function over an abstract two-file state together
with an oracle of success/failure outcomes for each primitive operation, in
program order.
-/

namespace Iceminus

/-- A Go string, modeled as a list of characters. -/
abbrev Str := List Char

/-! ## Line segmentation (the `bufio.Reader.ReadString` loop of `processFile`) -/

/-- Splits a file's bytes into physical lines exactly as the
`r.ReadString` loop of `processFile` does: every line keeps its
terminating newline character; a final line without a newline is kept as is;
the empty file yields no lines. -/
def splitLines : Str → List Str
  | [] => []
  | c :: cs =>
    if c = '\n' then ['\n'] :: splitLines cs
    else
      match splitLines cs with
      | [] => [[c]]
      | l :: ls => (c :: l) :: ls

/-- `strings.HasSuffix(rawLine, "\n")` in `processFile`. -/
def hasNL (l : Str) : Bool := l.getLast? == some '\n'

/-- The `content` variable of `processFile`: the raw line with its trailing
newline removed when present. -/
def lineContent (l : Str) : Str := if hasNL l then l.dropLast else l

/-! ## Word matching -/

/-- The matching loop of `processFile` (lines 192-200 of `main.go`):
every word of the list, in list order, that is non-empty and occurs in
`content` as a contiguous substring (`strings.Contains`). -/
def matchedWords (words : List Str) (content : Str) : List Str :=
  words.filter fun w => !w.isEmpty && decide (w <:+: content)

/-- The per-line body of the `processFile` loop: returns the output line and
whether the line was counted as matched.  A line whose content starts with
the comment marker is passed through unreported; a matched line is passed
through in dry-run mode and rewritten to marker + space + content (keeping
the original terminator) in apply mode. -/
def processLine (words : List Str) (dryRun : Bool) (rawLine : Str) : Str × Bool :=
  if (lineContent rawLine).head? == some '#' then (rawLine, false)
  else if (matchedWords words (lineContent rawLine)).isEmpty then (rawLine, false)
  else if dryRun then (rawLine, true)
  else ('#' :: ' ' :: lineContent rawLine ++ (if hasNL rawLine then ['\n'] else []), true)

/-- The pure content of `processFile`: given a file's bytes, return the bytes
on disk after the call together with the matched-line count it reports.
The write-back happens only when `modified && !dryRun` (line 224 of
`main.go`); otherwise the file keeps its original bytes. -/
def processFile (words : List Str) (dryRun : Bool) (input : Str) : Str × Nat :=
  if ((splitLines input).any fun l => (processLine words dryRun l).2) && !dryRun then
    (((splitLines input).map fun l => (processLine words dryRun l).1).flatten,
      ((splitLines input).filter fun l => (processLine words dryRun l).2).length)
  else
    (input, ((splitLines input).filter fun l => (processLine words dryRun l).2).length)

/-- Whether `processFile` writes the file back at all (the guard of line 224
of `main.go`): a write occurs only when at least one line matched and the
run is not a dry run. -/
def writesBack (words : List Str) (dryRun : Bool) (input : Str) : Bool :=
  ((splitLines input).any fun l => (processLine words dryRun l).2) && !dryRun

/-- Specification-side description of the apply-mode rewrite, following the
claim's words: each line whose content does not start with the comment
marker and contains at least one word of the set has its content replaced by
marker + space + original content, keeping the original terminator; every
other line is unchanged. -/
def specApplyLine (words : List Str) (l : Str) : Str :=
  if (lineContent l).head? != some '#'
      && words.any (fun w => decide (w <:+: lineContent l)) then
    '#' :: ' ' :: lineContent l ++ (if hasNL l then ['\n'] else [])
  else l

/-- Specification-side apply-mode output: the in-order concatenation of the
per-line rewrites of all physical lines. -/
def specApplyOutput (words : List Str) (input : Str) : Str :=
  ((splitLines input).map (specApplyLine words)).flatten

/-! ## Word-list loading (`loadSensitive`) -/

/-- ASCII whitespace recognized by `strings.TrimSpace` (the Unicode space
classes beyond ASCII are irrelevant to the word lists considered here). -/
def isSpace (c : Char) : Bool :=
  c == ' ' || c == '\t' || c == '\n' || c == '\x0b' || c == '\x0c' || c == '\r'

/-- `strings.TrimSpace`: remove leading and trailing whitespace. -/
def trimSpace (s : Str) : Str :=
  ((s.dropWhile isSpace).reverse.dropWhile isSpace).reverse

/-- One token of `bufio.ScanLines`: the line without its trailing newline,
and without a trailing carriage return. -/
def stripTerm (s : Str) : Str :=
  let t := if s.getLast? == some '\n' then s.dropLast else s
  if t.getLast? == some '\r' then t.dropLast else t

/-- The token sequence produced by `bufio.Scanner` with `ScanLines` over a
source text. -/
def scanLines (s : Str) : List Str := (splitLines s).map stripTerm

/-- `loadSensitive` (lines 83-108 of `main.go`) applied to the already-read
source text: scan lines, trim whitespace, drop empty results, keep order. -/
def loadSensitive (src : Str) : List Str :=
  (scanLines src).filterMap fun l =>
    if (trimSpace l).isEmpty then none else some (trimSpace l)

/-! ## Path selection (`processPath`) -/

/-- `filepath.Ext` on the reversed path: scan characters from the end of the
path; stop with the extension when the first dot is found, with nothing when
a path separator or the start of the string is reached first. -/
def extRev : Str → Str
  | [] => []
  | c :: cs =>
    if c = '/' then []
    else if c = '.' then ['.']
    else
      match extRev cs with
      | [] => []
      | e => c :: e

/-- `filepath.Ext(path)`: the suffix of the final path element starting at
its last dot, or empty when the final element has no dot. -/
def pathExt (path : Str) : Str := (extRev path.reverse).reverse

/-- The extension test of `processPath` (lines 123-124 of `main.go`):
lower-cased extension equals `.yaml` or `.yml`. -/
def isYamlExt (path : Str) : Bool :=
  let ext := (pathExt path).map Char.toLower
  ext == ".yaml".toList || ext == ".yml".toList

/-- One entry met by `filepath.WalkDir`. -/
structure DirEntry where
  path : Str
  isDir : Bool
deriving DecidableEq, Repr

/-- The scan root: either a single file or a directory whose recursive walk
yields the given entries in order. -/
inductive Root where
  | file (path : Str)
  | dir (entries : List DirEntry)
deriving DecidableEq, Repr

/-- The paths `processPath` (lines 110-151 of `main.go`) hands to
`processFile`, in walk order: a single-file root is processed directly,
regardless of extension; in a directory walk, directories are skipped and a
file is processed exactly when its lower-cased extension is `.yaml` or
`.yml`. -/
def processedFiles : Root → List Str
  | .file p => [p]
  | .dir es => es.filterMap fun e =>
      if e.isDir then none
      else if isYamlExt e.path then some e.path else none

/-! ## Startup (`main`, lines 18-34 of `main.go`) -/

/-- The platform facts `main` consults: whether the OS is Windows and the
result of `os.UserHomeDir` (`none` models an error). -/
structure Platform where
  isWindows : Bool
  userHomeDir : Option Str
deriving DecidableEq, Repr

/-- The default value of the `--path` flag (lines 20-25 of `main.go`): empty
everywhere except on Windows with a non-empty, error-free home directory,
where it is the Rime dictionary directory under the home. -/
def defaultPathValue (p : Platform) : Str :=
  if p.isWindows then
    match p.userHomeDir with
    | some home =>
        if home.isEmpty then [] else home ++ "\\AppData\\Roaming\\Rime\\cn_dicts".toList
    | none => []
  else []

/-- The value of `*path` after flag parsing: the flag's value when supplied,
the platform default otherwise. -/
def resolvedPath (p : Platform) (pathFlag : Option Str) : Str :=
  match pathFlag with
  | some s => s
  | none => defaultPathValue p

/-- How `main` starts: exit with the usage error before any other work, or
proceed to process the resolved path. -/
inductive MainStart where
  | usageExit
  | proceed (path : Str)
deriving DecidableEq, Repr

/-- Lines 31-34 of `main.go`: the usage error fires exactly when the
resolved path is empty, before the word list is loaded or any file is
touched. -/
def mainStart (p : Platform) (pathFlag : Option Str) : MainStart :=
  if (resolvedPath p pathFlag).isEmpty then .usageExit
  else .proceed (resolvedPath p pathFlag)

/-- The exit code of the usage error (line 33 of `main.go`). -/
def usageExitCode : Nat := 2

/-! ## File replacement (`processFile`, lines 224-270 of `main.go`)

The replacement protocol is embedded over an abstract state holding the
content of the target path and of the sibling temporary file (`none` means
the file does not exist), together with an oracle: a list of booleans giving
the outcome of each fallible primitive operation in the order the code
attempts them.  An exhausted oracle means the remaining operations succeed.
A failed write is modeled as leaving the empty prefix of the data. -/

/-- The two files the replacement protocol touches. -/
structure FS where
  orig : Option Str
  tmp : Option Str
deriving DecidableEq, Repr

/-- The next outcome popped from the oracle (success when exhausted). -/
def nextOk (o : List Bool) : Bool := o.headD true

/-- The oracle after one outcome has been consumed. -/
def restOracle (o : List Bool) : List Bool := o.tail

/-- The truncating-overwrite tail of the fallback (lines 264-269 of
`main.go`): the target has already been opened with truncation (so it holds
the empty content); write the temporary file's data (a failed write leaves
the empty prefix), then remove the temporary file ignoring its error. -/
def writePhase (tmpData : Str) (fs : FS) (oracle : List Bool) : FS × Bool :=
  if !nextOk oracle then ({ fs with orig := some [] }, false)
  else if nextOk (restOracle oracle) then
    ({ fs with orig := some tmpData, tmp := none }, true)
  else ({ fs with orig := some tmpData }, true)

/-- The overwrite fallback (lines 250-269 of `main.go`): read the temporary
file (reading succeeds when the oracle says so and the temporary exists; on
failure, `os.Remove(path)` is evaluated while formatting the error message,
then the error is returned); open the target with truncation, retrying once
after a chmod whose outcome is ignored; then write. -/
def overwriteFallback (fs : FS) (oracle : List Bool) : FS × Bool :=
  if nextOk oracle && !fs.tmp.isNone then
    if nextOk (restOracle oracle) then
      writePhase (fs.tmp.getD []) { fs with orig := some [] }
        (restOracle (restOracle oracle))
    else if nextOk (restOracle (restOracle (restOracle oracle))) then
      writePhase (fs.tmp.getD []) { fs with orig := some [] }
        (restOracle (restOracle (restOracle (restOracle oracle))))
    else (fs, false)
  else
    if nextOk (restOracle oracle) then ({ fs with orig := none }, false)
    else (fs, false)

/-- The whole replacement protocol (lines 224-270 of `main.go`): write the
new data to the temporary file; try an atomic rename; on failure try
remove-then-rename; if the remove fails, chmod (one outcome consumed, its
value ignored), retry the remove, then rename; if all rename strategies
fail, fall back to the truncating overwrite.  A successful rename puts the
temporary's content (the new data) at the target and removes the
temporary; a successful remove deletes the target. -/
def replaceFile (data : Str) (fs0 : FS) (oracle : List Bool) : FS × Bool :=
  if !nextOk oracle then ({ fs0 with tmp := some [] }, false)
  else if nextOk (restOracle oracle) then
    ({ orig := some data, tmp := none }, true)
  else if nextOk (restOracle (restOracle oracle)) then
    if nextOk (restOracle (restOracle (restOracle oracle))) then
      ({ orig := some data, tmp := none }, true)
    else
      overwriteFallback { orig := none, tmp := some data }
        (restOracle (restOracle (restOracle (restOracle oracle))))
  else
    if nextOk (restOracle (restOracle (restOracle (restOracle oracle)))) then
      if nextOk (restOracle (restOracle (restOracle (restOracle (restOracle oracle))))) then
        ({ orig := some data, tmp := none }, true)
      else
        overwriteFallback { orig := none, tmp := some data }
          (restOracle (restOracle (restOracle (restOracle (restOracle (restOracle oracle))))))
    else
      overwriteFallback { fs0 with tmp := some data }
        (restOracle (restOracle (restOracle (restOracle (restOracle oracle)))))

/-- Whether the overwrite fallback, entered with the temporary file present,
reaches and succeeds at an operation that mutates the target before the new
content is in place: a truncating open (first or retried), or the remove of
the target evaluated while formatting the failed-read error.  Mirrors the
branching of `overwriteFallback` on the same oracle. -/
def destructiveFallback (oracle : List Bool) : Bool :=
  if nextOk oracle then
    if nextOk (restOracle oracle) then true
    else nextOk (restOracle (restOracle (restOracle oracle)))
  else nextOk (restOracle oracle)

/-- Whether a run of the replacement protocol reaches and succeeds at an
operation that destroys the target before the new content is in place: a
delete of the target (first or retried, or the one evaluated while
formatting the failed-read error) or a truncating open.  Mirrors the
branching of `replaceFile` on the same oracle. -/
def destructiveOp (oracle : List Bool) : Bool :=
  if !nextOk oracle then false
  else if nextOk (restOracle oracle) then false
  else if nextOk (restOracle (restOracle oracle)) then true
  else if nextOk (restOracle (restOracle (restOracle (restOracle oracle)))) then true
  else destructiveFallback
    (restOracle (restOracle (restOracle (restOracle (restOracle oracle)))))

/-! ## Shape invariants of physical lines (used to re-split written files) -/

/-- A well-formed physical line: non-empty and containing no newline before
its last character. -/
def isLine (l : Str) : Bool := !l.isEmpty && l.dropLast.all (fun c => !(c == '\n'))

/-- A well-formed line sequence: every line is well-formed and every line
except the last ends with a newline.  `splitLines` always produces such a
sequence, and such a sequence is recovered unchanged by `splitLines` from
its concatenation. -/
def validLines : List Str → Bool
  | [] => true
  | [l] => isLine l
  | l :: l2 :: ls => isLine l && hasNL l && validLines (l2 :: ls)

/-! ## Lemmas: line segmentation -/

theorem splitLines_flatten (s : Str) : (splitLines s).flatten = s := by
  induction s with
  | nil => rfl
  | cons c cs ih =>
    simp only [splitLines]
    by_cases h : c = '\n'
    · simp [h, ih]
    · rw [if_neg h]
      cases hsl : splitLines cs with
      | nil =>
        rw [hsl] at ih
        simp only [List.flatten_nil] at ih
        simp [← ih]
      | cons l ls =>
        rw [hsl] at ih
        simp only [List.flatten_cons] at ih ⊢
        simp [ih]

theorem splitLines_cons_of_ne (c : Char) (cs : Str) (hc : c ≠ '\n')
    (l : Str) (ls : List Str) (h : splitLines cs = l :: ls) :
    splitLines (c :: cs) = (c :: l) :: ls := by
  simp only [splitLines, if_neg hc, h]

theorem splitLines_single (l : Str) (h0 : l ≠ [])
    (h1 : ∀ c ∈ l.dropLast, c ≠ '\n') : splitLines l = [l] := by
  induction l with
  | nil => exact absurd rfl h0
  | cons c cs ih =>
    cases cs with
    | nil =>
      simp only [splitLines]
      by_cases h : c = '\n' <;> simp [h]
    | cons c2 cs2 =>
      have hd : (c :: c2 :: cs2).dropLast = c :: (c2 :: cs2).dropLast := rfl
      have hc : c ≠ '\n' := h1 c (by rw [hd]; exact List.mem_cons_self ..)
      have ih2 := ih (by simp)
        (fun x hx => h1 x (by rw [hd]; exact List.mem_cons_of_mem _ hx))
      exact splitLines_cons_of_ne c (c2 :: cs2) hc _ _ ih2

theorem splitLines_append_nl (m t : Str) (h : '\n' ∉ m) :
    splitLines (m ++ '\n' :: t) = (m ++ ['\n']) :: splitLines t := by
  induction m with
  | nil => simp [splitLines]
  | cons c m2 ih =>
    have hc : c ≠ '\n' := by
      intro e
      exact h (by rw [e]; exact List.mem_cons_self ..)
    have ih2 := ih (fun hm => h (List.mem_cons_of_mem _ hm))
    rw [List.cons_append, List.cons_append]
    exact splitLines_cons_of_ne c _ hc _ _ ih2

/-! ## Lemmas: line shape -/

theorem isLine_ne_nil (l : Str) (h : isLine l = true) : l ≠ [] := by
  intro e
  rw [e] at h
  exact absurd h (by decide)

theorem isLine_no_nl (l : Str) (h : isLine l = true) : ∀ c ∈ l.dropLast, c ≠ '\n' := by
  intro c hc
  unfold isLine at h
  rw [Bool.and_eq_true] at h
  have := List.all_eq_true.mp h.2 c hc
  simpa using this

theorem getLast?_cons_of_ne_nil (a : Char) (l : Str) (h : l ≠ []) :
    (a :: l).getLast? = l.getLast? := by
  cases l with
  | nil => exact absurd rfl h
  | cons b bs => exact List.getLast?_cons_cons ..

theorem hasNL_cons (a : Char) (l : Str) (h : l ≠ []) : hasNL (a :: l) = hasNL l := by
  unfold hasNL
  rw [getLast?_cons_of_ne_nil a l h]

theorem isLine_cons (c : Char) (l : Str) (hc : c ≠ '\n') (hl : isLine l = true) :
    isLine (c :: l) = true := by
  have hne := isLine_ne_nil l hl
  cases l with
  | nil => exact absurd rfl hne
  | cons a as =>
    unfold isLine at hl ⊢
    rw [Bool.and_eq_true] at hl ⊢
    refine ⟨by simp, ?_⟩
    have hd : (c :: a :: as).dropLast = c :: (a :: as).dropLast := rfl
    rw [hd, List.all_cons, Bool.and_eq_true]
    exact ⟨by simpa using hc, hl.2⟩

theorem validLines_splitLines (s : Str) : validLines (splitLines s) = true := by
  induction s with
  | nil => rfl
  | cons c cs ih =>
    simp only [splitLines]
    by_cases h : c = '\n'
    · rw [if_pos h]
      cases hsl : splitLines cs with
      | nil => rfl
      | cons l ls =>
        rw [hsl] at ih
        simp only [validLines, Bool.and_eq_true]
        exact ⟨⟨by decide, by decide⟩, ih⟩
    · rw [if_neg h]
      cases hsl : splitLines cs with
      | nil => simp [validLines, isLine]
      | cons l ls =>
        rw [hsl] at ih
        cases ls with
        | nil =>
          simp only [validLines] at ih ⊢
          exact isLine_cons c l h ih
        | cons l2 ls2 =>
          simp only [validLines, Bool.and_eq_true] at ih ⊢
          obtain ⟨⟨h1, h2⟩, h3⟩ := ih
          have hne := isLine_ne_nil l h1
          exact ⟨⟨isLine_cons c l h h1, by rw [hasNL_cons c l hne]; exact h2⟩, h3⟩

theorem hasNL_decomp (l : Str) (h : hasNL l = true) : l.dropLast ++ ['\n'] = l := by
  unfold hasNL at h
  have : l.getLast? = some '\n' := by simpa using h
  exact List.dropLast_append_getLast? '\n' this

theorem splitLines_flatten_of_valid (L : List Str) (h : validLines L = true) :
    splitLines L.flatten = L := by
  induction L with
  | nil => rfl
  | cons l ls ih =>
    cases ls with
    | nil =>
      simp only [validLines] at h
      simp only [List.flatten_cons, List.flatten_nil, List.append_nil]
      exact splitLines_single l (isLine_ne_nil l h) (isLine_no_nl l h)
    | cons l2 ls2 =>
      simp only [validLines, Bool.and_eq_true] at h
      obtain ⟨⟨h1, h2⟩, h3⟩ := h
      have hdec := hasNL_decomp l h2
      have hnl : '\n' ∉ l.dropLast := by
        intro hm
        exact isLine_no_nl l h1 '\n' hm rfl
      have he : (l :: l2 :: ls2).flatten = l.dropLast ++ '\n' :: (l2 :: ls2).flatten := by
        rw [List.flatten_cons]
        conv_lhs => rw [← hdec]
        rw [List.append_assoc, List.singleton_append]
      rw [he, splitLines_append_nl _ _ hnl, hdec, ih h3]

theorem validLines_map (f : Str → Str)
    (hf : ∀ l, isLine l = true → isLine (f l) = true ∧ hasNL (f l) = hasNL l)
    (L : List Str) (h : validLines L = true) : validLines (L.map f) = true := by
  induction L with
  | nil => rfl
  | cons l ls ih =>
    cases ls with
    | nil =>
      simp only [validLines] at h
      simp only [List.map_cons, List.map_nil, validLines]
      exact (hf l h).1
    | cons l2 ls2 =>
      simp only [validLines, Bool.and_eq_true] at h
      obtain ⟨⟨h1, h2⟩, h3⟩ := h
      simp only [List.map_cons] at ih ⊢
      simp only [validLines, Bool.and_eq_true]
      exact ⟨⟨(hf l h1).1, by rw [(hf l h1).2]; exact h2⟩, ih h3⟩


/-! ## Lemmas: per-line processing -/

theorem hasNL_concat_nl (x : Str) : hasNL (x ++ ['\n']) = true := by
  unfold hasNL
  rw [List.getLast?_concat]
  rfl

theorem lineContent_concat_nl (x : Str) : lineContent (x ++ ['\n']) = x := by
  unfold lineContent
  rw [hasNL_concat_nl, if_pos rfl, List.dropLast_concat]

theorem lineContent_of_not_nl (l : Str) (h : hasNL l = false) : lineContent l = l := by
  unfold lineContent
  rw [h]
  rfl

theorem lineContent_of_nl (l : Str) (h : hasNL l = true) : lineContent l = l.dropLast := by
  unfold lineContent
  rw [h]
  rfl

theorem isLine_all (l : Str) (h : isLine l = true) :
    l.dropLast.all (fun c => !(c == '\n')) = true := by
  unfold isLine at h
  exact (Bool.and_eq_true .. |>.mp h).2

theorem isLine_marker_nl (y : Str) (hy : y.all (fun c => !(c == '\n')) = true) :
    isLine (('#' :: ' ' :: y) ++ ['\n']) = true := by
  unfold isLine
  rw [Bool.and_eq_true, List.dropLast_concat]
  refine ⟨by simp, ?_⟩
  rw [List.all_cons, List.all_cons]
  simp only [Bool.and_eq_true]
  exact ⟨by decide, by decide, hy⟩

theorem processLine_eq_marker (w : List Str) (d : Bool) (l : Str)
    (h1 : ¬((lineContent l).head? == some '#') = true)
    (h2 : ¬(matchedWords w (lineContent l)).isEmpty = true)
    (h3 : ¬d = true) :
    processLine w d l =
      ('#' :: ' ' :: lineContent l ++ (if hasNL l then ['\n'] else []), true) := by
  unfold processLine
  rw [if_neg h1, if_neg h2, if_neg h3]

theorem processLine_fst_of_not_snd (w : List Str) (d : Bool) (l : Str)
    (h : (processLine w d l).2 = false) : (processLine w d l).1 = l := by
  by_cases h1 : ((lineContent l).head? == some '#') = true
  · unfold processLine
    rw [if_pos h1]
  · by_cases h2 : (matchedWords w (lineContent l)).isEmpty = true
    · unfold processLine
      rw [if_neg h1, if_pos h2]
    · by_cases h3 : d = true
      · have e : processLine w d l = (l, true) := by
          unfold processLine
          rw [if_neg h1, if_neg h2, if_pos h3]
        rw [e] at h
        simp at h
      · rw [processLine_eq_marker w d l h1 h2 h3] at h
        simp at h

theorem processLine_snd_dry (w : List Str) (d d' : Bool) (l : Str) :
    (processLine w d l).2 = (processLine w d' l).2 := by
  unfold processLine
  by_cases h1 : ((lineContent l).head? == some '#') = true
  · rw [if_pos h1, if_pos h1]
  · rw [if_neg h1, if_neg h1]
    by_cases h2 : (matchedWords w (lineContent l)).isEmpty = true
    · rw [if_pos h2, if_pos h2]
    · rw [if_neg h2, if_neg h2]
      by_cases h3 : d = true <;> by_cases h4 : d' = true <;>
        simp [h3, h4]

theorem processLine_isLine (w : List Str) (d : Bool) (l : Str) (h : isLine l = true) :
    isLine (processLine w d l).1 = true ∧ hasNL (processLine w d l).1 = hasNL l := by
  by_cases hsnd : (processLine w d l).2 = false
  · rw [processLine_fst_of_not_snd w d l hsnd]
    exact ⟨h, rfl⟩
  · by_cases h1 : ((lineContent l).head? == some '#') = true
    · have e : processLine w d l = (l, false) := by
        unfold processLine
        rw [if_pos h1]
      rw [e]
      exact ⟨h, rfl⟩
    · by_cases h2 : (matchedWords w (lineContent l)).isEmpty = true
      · have e : processLine w d l = (l, false) := by
          unfold processLine
          rw [if_neg h1, if_pos h2]
        rw [e]
        exact ⟨h, rfl⟩
      · by_cases h3 : d = true
        · have e : processLine w d l = (l, true) := by
            unfold processLine
            rw [if_neg h1, if_neg h2, if_pos h3]
          rw [e]
          exact ⟨h, rfl⟩
        · rw [processLine_eq_marker w d l h1 h2 h3]
          by_cases hn : hasNL l = true
          · rw [if_pos hn]
            constructor
            · apply isLine_marker_nl
              rw [lineContent_of_nl l hn]
              exact isLine_all l h
            · rw [hasNL_concat_nl, hn]
          · have hn' : hasNL l = false := Bool.eq_false_iff.mpr hn
            rw [if_neg hn, List.append_nil, lineContent_of_not_nl l hn']
            have hne := isLine_ne_nil l h
            constructor
            · exact isLine_cons '#' _ (by decide) (isLine_cons ' ' _ (by decide) h)
            · rw [hasNL_cons '#' (' ' :: l) (by simp), hasNL_cons ' ' l hne]

theorem marker_head (content : Str) (b : Bool)
    (h : b = false → content.getLast? ≠ some '\n') :
    (lineContent ('#' :: ' ' :: content ++ (if b then ['\n'] else []))).head? = some '#' := by
  cases b with
  | true =>
    rw [if_pos rfl, lineContent_concat_nl]
    rfl
  | false =>
    have hg : ('#' :: ' ' :: content).getLast? ≠ some '\n' := by
      cases content with
      | nil => simp
      | cons a as =>
        rw [getLast?_cons_of_ne_nil '#' _ (by simp), getLast?_cons_of_ne_nil ' ' _ (by simp)]
        exact h rfl
    have hn : hasNL ('#' :: ' ' :: content) = false := by
      unfold hasNL
      simpa using hg
    rw [if_neg (by decide), List.append_nil, lineContent_of_not_nl _ hn]
    rfl

theorem processLine_reapply (w : List Str) (l : Str) :
    processLine w false (processLine w false l).1 = ((processLine w false l).1, false) := by
  by_cases h1 : ((lineContent l).head? == some '#') = true
  · have e : processLine w false l = (l, false) := by
      unfold processLine
      rw [if_pos h1]
    rw [e]
    exact e
  · by_cases h2 : (matchedWords w (lineContent l)).isEmpty = true
    · have e : processLine w false l = (l, false) := by
        unfold processLine
        rw [if_neg h1, if_pos h2]
      rw [e]
      exact e
    · rw [processLine_eq_marker w false l h1 h2 (by decide)]
      have hside : hasNL l = false → (lineContent l).getLast? ≠ some '\n' := by
        intro hn
        rw [lineContent_of_not_nl l hn]
        unfold hasNL at hn
        simpa using hn
      have hh : ((lineContent ('#' :: ' ' :: lineContent l ++
          (if hasNL l then ['\n'] else []))).head? == some '#') = true := by
        rw [marker_head (lineContent l) (hasNL l) hside]
        rfl
      unfold processLine
      rw [if_pos hh]

/-! ## Lemmas: whole-file processing -/

theorem processFile_eq_pos (w : List Str) (d : Bool) (input : Str)
    (h : (((splitLines input).any fun l => (processLine w d l).2) && !d) = true) :
    processFile w d input =
      (((splitLines input).map fun l => (processLine w d l).1).flatten,
        ((splitLines input).filter fun l => (processLine w d l).2).length) := by
  unfold processFile
  rw [if_pos h]

theorem processFile_eq_neg (w : List Str) (d : Bool) (input : Str)
    (h : ¬((((splitLines input).any fun l => (processLine w d l).2) && !d) = true)) :
    processFile w d input =
      (input, ((splitLines input).filter fun l => (processLine w d l).2).length) := by
  unfold processFile
  rw [if_neg h]

theorem processFile_snd (w : List Str) (d : Bool) (input : Str) :
    (processFile w d input).2 =
      ((splitLines input).filter fun l => (processLine w d l).2).length := by
  unfold processFile
  split <;> rfl

theorem processFile_noop (w : List Str) (s : Str)
    (h : ∀ l ∈ splitLines s, (processLine w false l).2 = false) :
    processFile w false s = (s, 0) := by
  have ha : ((splitLines s).any fun l => (processLine w false l).2) = false :=
    List.any_eq_false.mpr (fun l hl => by rw [h l hl]; exact Bool.false_ne_true)
  have hf : ((splitLines s).filter fun l => (processLine w false l).2) = [] :=
    List.filter_eq_nil_iff.mpr (fun l hl => by rw [h l hl]; exact Bool.false_ne_true)
  rw [processFile_eq_neg w false s (by rw [ha]; simp), hf]
  rfl

theorem processFile_out_snd (w : List Str) (input : Str) :
    ∀ l ∈ splitLines (processFile w false input).1, (processLine w false l).2 = false := by
  by_cases hm : (((splitLines input).any fun l => (processLine w false l).2) && !false) = true
  · rw [processFile_eq_pos w false input hm]
    have hv : validLines ((splitLines input).map fun l => (processLine w false l).1) = true :=
      validLines_map _ (fun l hl => processLine_isLine w false l hl) _
        (validLines_splitLines input)
    rw [splitLines_flatten_of_valid _ hv]
    intro l hl
    obtain ⟨l0, _, rfl⟩ := List.mem_map.mp hl
    exact congrArg Prod.snd (processLine_reapply w l0)
  · rw [processFile_eq_neg w false input hm]
    have ha : ((splitLines input).any fun l => (processLine w false l).2) = false := by
      rcases Bool.eq_false_or_eq_true ((splitLines input).any fun l => (processLine w false l).2)
        with h | h
      · exact absurd (by rw [h]; rfl) hm
      · exact h
    intro l hl
    exact Bool.eq_false_iff.mpr (List.any_eq_false.mp ha l hl)

/-! ## Claim theorems: line rewriting core -/

theorem processLine_specApplyLine (words : List Str) (l : Str) (hw : [] ∉ words) :
    (processLine words false l).1 = specApplyLine words l := by
  by_cases h1 : ((lineContent l).head? == some '#') = true
  · have e : processLine words false l = (l, false) := by
      unfold processLine
      rw [if_pos h1]
    rw [e]
    have hcond : ¬ ((((lineContent l).head? != some '#')
        && (words.any fun w => decide (w <:+: lineContent l))) = true) := by
      intro hc
      rw [Bool.and_eq_true, bne_iff_ne] at hc
      exact hc.1 (by simpa using h1)
    unfold specApplyLine
    rw [if_neg hcond]
  · by_cases h2 : (matchedWords words (lineContent l)).isEmpty = true
    · have e : processLine words false l = (l, false) := by
        unfold processLine
        rw [if_neg h1, if_pos h2]
      rw [e]
      have hany : (words.any fun w => decide (w <:+: lineContent l)) = false := by
        rw [List.any_eq_false]
        intro w hwmem hcon
        have hne : w ≠ [] := fun e' => hw (e' ▸ hwmem)
        have hmem2 : w ∈ matchedWords words (lineContent l) := by
          unfold matchedWords
          rw [List.mem_filter, Bool.and_eq_true]
          exact ⟨hwmem, by simpa using hne, hcon⟩
        rw [List.isEmpty_iff.mp h2] at hmem2
        exact absurd hmem2 (List.not_mem_nil w)
      have hcond : ¬ ((((lineContent l).head? != some '#')
          && (words.any fun w => decide (w <:+: lineContent l))) = true) := by
        rw [hany]
        simp
      unfold specApplyLine
      rw [if_neg hcond]
    · rw [processLine_eq_marker words false l h1 h2 (by decide)]
      have hex : (words.any fun w => decide (w <:+: lineContent l)) = true := by
        have hne : matchedWords words (lineContent l) ≠ [] := by
          intro e'
          exact h2 (by rw [e']; rfl)
        obtain ⟨w, hwmem⟩ := List.exists_mem_of_ne_nil _ hne
        unfold matchedWords at hwmem
        rw [List.mem_filter, Bool.and_eq_true] at hwmem
        rw [List.any_eq_true]
        exact ⟨w, hwmem.1, hwmem.2.2⟩
      have hb : ((lineContent l).head? != some '#') = true := by
        rw [bne_iff_ne]
        intro hh
        exact h1 (by rw [hh]; rfl)
      have hcond : ((((lineContent l).head? != some '#')
          && (words.any fun w => decide (w <:+: lineContent l)))) = true := by
        rw [Bool.and_eq_true]
        exact ⟨hb, hex⟩
      unfold specApplyLine
      rw [if_pos hcond]

/-- C1: the apply-mode rewrite produces exactly the claimed output: every
line whose content does not start with the comment marker and contains a
word of the set becomes marker + space + content with its original
terminator (including a missing final newline); every other line passes
through unchanged; the output is the in-order concatenation of all lines.
The hypothesis says the word set contains no empty word, as guaranteed for
every set built by `loadSensitive` (the data model's Words are non-empty
strings). -/
theorem apply_mode_rewrite (words : List Str) (input : Str) (hw : [] ∉ words) :
    (processFile words false input).1 = specApplyOutput words input := by
  unfold specApplyOutput
  by_cases hm : (((splitLines input).any fun l => (processLine words false l).2) && !false) = true
  · rw [processFile_eq_pos words false input hm]
    exact congrArg List.flatten
      (List.map_congr_left (fun l _ => processLine_specApplyLine words l hw))
  · rw [processFile_eq_neg words false input hm]
    have ha : ((splitLines input).any fun l => (processLine words false l).2) = false := by
      rcases Bool.eq_false_or_eq_true ((splitLines input).any fun l => (processLine words false l).2)
        with h | h
      · exact absurd (by rw [h]; rfl) hm
      · exact h
    have hid : ∀ l ∈ splitLines input, specApplyLine words l = (fun x => x) l := by
      intro l hl
      rw [← processLine_specApplyLine words l hw]
      exact processLine_fst_of_not_snd words false l
        (Bool.eq_false_iff.mpr (List.any_eq_false.mp ha l hl))
    rw [List.map_congr_left hid, List.map_id', splitLines_flatten]

/-- C1 witness: the rewrite equality evaluated at the end-to-end scenario of
the specification. -/
theorem apply_mode_rewrite_witness :
    ([] ∉ (["secret".toList] : List Str)) ∧
    (processFile ["secret".toList] false
        "line1: ok\nline2: secret123\n# already: secret\nlast secret line".toList).1 =
      specApplyOutput ["secret".toList]
        "line1: ok\nline2: secret123\n# already: secret\nlast secret line".toList :=
  ⟨by decide, apply_mode_rewrite ["secret".toList] _ (by decide)⟩

/-- C2: running the apply-mode pipeline a second time on the bytes produced
by a first apply-mode run reports zero matches and leaves the bytes
identical to the first run's output. -/
theorem apply_mode_idempotent (words : List Str) (input : Str) :
    (processFile words false (processFile words false input).1).2 = 0 ∧
    (processFile words false (processFile words false input).1).1 =
      (processFile words false input).1 := by
  have h := processFile_noop words (processFile words false input).1
    (processFile_out_snd words input)
  rw [h]
  exact ⟨rfl, rfl⟩

/-- C4: a dry run never changes the file's bytes, and the matched-line count
it reports is the count an apply-mode run on the same bytes reports. -/
theorem dry_run_pure (words : List Str) (input : Str) :
    (processFile words true input).1 = input ∧
    (processFile words true input).2 = (processFile words false input).2 := by
  constructor
  · rw [processFile_eq_neg words true input (by simp)]
  · rw [processFile_snd, processFile_snd]
    exact congrArg List.length
      (List.filter_congr (fun l _ => processLine_snd_dry words true false l))

/-- C5: a file in which no line matches is left completely untouched: no
write-back occurs at all and the bytes are exactly the input bytes. -/
theorem no_match_untouched (words : List Str) (dryRun : Bool) (input : Str)
    (h : (processFile words dryRun input).2 = 0) :
    (processFile words dryRun input).1 = input ∧
      writesBack words dryRun input = false := by
  have hf : ((splitLines input).filter fun l => (processLine words dryRun l).2) = [] := by
    rw [processFile_snd] at h
    exact List.length_eq_zero.mp h
  have ha : ((splitLines input).any fun l => (processLine words dryRun l).2) = false :=
    List.any_eq_false.mpr (List.filter_eq_nil_iff.mp hf)
  constructor
  · rw [processFile_eq_neg words dryRun input (by rw [ha]; simp)]
  · unfold writesBack
    rw [ha]
    rfl

/-- C5 witness: a two-line file with no occurrence of the word. -/
theorem no_match_untouched_witness :
    (processFile ["secret".toList] false "hello\nworld\n".toList).2 = 0 ∧
    ((processFile ["secret".toList] false "hello\nworld\n".toList).1 =
        "hello\nworld\n".toList ∧
      writesBack ["secret".toList] false "hello\nworld\n".toList = false) :=
  ⟨by decide, no_match_untouched ["secret".toList] false "hello\nworld\n".toList (by decide)⟩

/-- C6: a line whose content's first character is the comment marker is
never reported as a match (so it is not counted in any statistic) and is
passed through byte-identically, in both modes, whatever words it
contains. -/
theorem comment_line_skipped (words : List Str) (dryRun : Bool) (rawLine : Str)
    (h : (lineContent rawLine).head? = some '#') :
    processLine words dryRun rawLine = (rawLine, false) := by
  unfold processLine
  rw [if_pos (by rw [h]; rfl)]

/-- C6 witness: an already-commented line containing the sensitive word. -/
theorem comment_line_skipped_witness :
    (lineContent "# pw: secret\n".toList).head? = some '#' ∧
    processLine ["secret".toList] false "# pw: secret\n".toList =
      ("# pw: secret\n".toList, false) :=
  ⟨by decide, comment_line_skipped ["secret".toList] false "# pw: secret\n".toList (by decide)⟩

/-! ## Claim theorems: word-list loading and matching -/

theorem loadSensitive_eq_filter (src : Str) :
    loadSensitive src = ((scanLines src).map trimSpace).filter fun t => !t.isEmpty := by
  unfold loadSensitive
  induction scanLines src with
  | nil => rfl
  | cons a as ih =>
    by_cases h : (trimSpace a).isEmpty = true
    · have h2 : trimSpace a = [] := List.isEmpty_iff.mp h
      simp [List.filterMap_cons, List.filter_cons, h, h2]
      simpa using ih
    · have h2 : ¬(trimSpace a = []) := by
        simpa [List.isEmpty_iff] using h
      simp [List.filterMap_cons, List.filter_cons, h, h2]
      simpa using ih

theorem loadSensitive_not_empty (src : Str) :
    ∀ w ∈ loadSensitive src, w.isEmpty = false := by
  intro w hw
  unfold loadSensitive at hw
  rw [List.mem_filterMap] at hw
  obtain ⟨a, _, ha⟩ := hw
  by_cases h : (trimSpace a).isEmpty = true
  · rw [if_pos h] at ha
    exact absurd ha (by simp)
  · rw [if_neg h] at ha
    have := Option.some.inj ha
    rw [← this]
    exact Bool.eq_false_iff.mpr h

/-- C9: loading a word list maps line scanning through whitespace trimming,
discards empty results and keeps the remaining words in order (duplicates
permitted); matching a content against a loaded set returns exactly the
words of the set that occur in the content as contiguous substrings, in set
order, with no special treatment of the comment marker. -/
theorem wordset_load_and_match :
    (∀ src : Str, loadSensitive src
        = ((scanLines src).map trimSpace).filter fun t => !t.isEmpty) ∧
    (∀ src content : Str, matchedWords (loadSensitive src) content
        = (loadSensitive src).filter fun w => decide (w <:+: content)) := by
  refine ⟨loadSensitive_eq_filter, fun src content => ?_⟩
  unfold matchedWords
  exact List.filter_congr fun w hw => by
    rw [loadSensitive_not_empty src w hw]
    rfl

/-! ## Claim theorems: path selection -/

/-- C8: in a directory scan, exactly the non-directory entries whose
lower-cased extension is `.yaml` or `.yml` are processed; a single-file root
is processed whatever its extension; a `.txt` file is never selected, and
the extension comparison is case-insensitive. -/
theorem yaml_selection :
    (∀ (entries : List DirEntry) (p : Str),
        p ∈ processedFiles (Root.dir entries) ↔
          ∃ e, e ∈ entries ∧ e.isDir = false ∧ e.path = p ∧ isYamlExt p = true) ∧
    (∀ p : Str, processedFiles (Root.file p) = [p]) ∧
    isYamlExt "notes.txt".toList = false ∧
    isYamlExt "dir/DATA.YAML".toList = true ∧
    isYamlExt "d.yMl".toList = true := by
  refine ⟨fun entries p => ?_, fun p => rfl, by decide, by decide, by decide⟩
  unfold processedFiles
  rw [List.mem_filterMap]
  constructor
  · rintro ⟨e, he, hg⟩
    by_cases h1 : e.isDir = true
    · rw [if_pos h1] at hg
      exact absurd hg (by simp)
    · rw [if_neg h1] at hg
      by_cases h2 : isYamlExt e.path = true
      · rw [if_pos h2] at hg
        have hp := Option.some.inj hg
        exact ⟨e, he, Bool.eq_false_iff.mpr h1, hp, hp ▸ h2⟩
      · rw [if_neg h2] at hg
        exact absurd hg (by simp)
  · rintro ⟨e, he, h1, h2, h3⟩
    refine ⟨e, he, ?_⟩
    rw [if_neg (by rw [h1]; exact Bool.false_ne_true),
      if_pos (by rw [h2]; exact h3), h2]

/-! ## Claim theorems: CRLF handling -/

/-- C10: a physical line ending in CR LF keeps the carriage return as part
of its content: the whole CRLF line is one physical line; an
already-commented or unmatched line passes through byte-identically; a
matched line becomes marker + space + content (still ending in CR) + LF, so
the CRLF ending survives the rewrite. -/
theorem crlf_line_preserved (words : List Str) (body : Str) (h : '\n' ∉ body) :
    splitLines (body ++ ['\r', '\n']) = [body ++ ['\r', '\n']] ∧
    lineContent (body ++ ['\r', '\n']) = body ++ ['\r'] ∧
    ((body ++ ['\r']).head? = some '#' ∨ matchedWords words (body ++ ['\r']) = [] →
      processLine words false (body ++ ['\r', '\n']) = (body ++ ['\r', '\n'], false)) ∧
    ((body ++ ['\r']).head? ≠ some '#' → matchedWords words (body ++ ['\r']) ≠ [] →
      processLine words false (body ++ ['\r', '\n']) =
        ('#' :: ' ' :: body ++ ['\r', '\n'], true)) := by
  have hsp : body ++ ['\r', '\n'] = (body ++ ['\r']) ++ ['\n'] := by
    rw [List.append_assoc]
    rfl
  have hlc : lineContent (body ++ ['\r', '\n']) = body ++ ['\r'] := by
    rw [hsp, lineContent_concat_nl]
  have hnl : hasNL (body ++ ['\r', '\n']) = true := by
    rw [hsp]
    exact hasNL_concat_nl _
  refine ⟨?_, hlc, ?_, ?_⟩
  · rw [hsp]
    exact splitLines_append_nl (body ++ ['\r']) [] (by simp [h])
  · intro hor
    rcases hor with hh | hm
    · unfold processLine
      rw [if_pos (by rw [hlc, hh]; rfl)]
    · by_cases hh : ((lineContent (body ++ ['\r', '\n'])).head? == some '#') = true
      · unfold processLine
        rw [if_pos hh]
      · unfold processLine
        rw [if_neg hh, if_pos (by rw [hlc, hm]; rfl)]
  · intro hh1 hm
    have hbeq : ¬(((lineContent (body ++ ['\r', '\n'])).head? == some '#') = true) := by
      rw [hlc]
      simpa using hh1
    have hie : ¬((matchedWords words (lineContent (body ++ ['\r', '\n']))).isEmpty = true) := by
      rw [hlc]
      simpa [List.isEmpty_iff] using hm
    rw [processLine_eq_marker words false _ hbeq hie (by decide), hlc, hnl]
    simp [List.append_assoc]

/-- C10 witness: a matched CRLF line evaluated concretely. -/
theorem crlf_line_preserved_witness :
    ('\n' ∉ "k: secret".toList) ∧
    processLine ["secret".toList] false ("k: secret".toList ++ ['\r', '\n']) =
      ('#' :: ' ' :: "k: secret".toList ++ ['\r', '\n'], true) :=
  ⟨by decide,
    (crlf_line_preserved ["secret".toList] "k: secret".toList (by decide)).2.2.2
      (by decide) (by decide)⟩

/-! ## Claim theorems: startup and the usage error -/

/-- C7 counterexample: on Windows with a resolvable, non-empty home
directory, a missing `--path` does not produce the usage error: the program
proceeds on the default Rime dictionary path. -/
theorem usage_error_counterexample :
    mainStart ⟨true, some "C:\\Users\\u".toList⟩ none ≠ MainStart.usageExit := by
  decide

/-- C7 amended: when `--path` is absent, the program fails with the usage
error and exit code 2 before doing any work on every non-Windows platform,
and on Windows whenever the home directory cannot be determined or is
empty; on Windows with a non-empty home directory the absent flag instead
defaults to the Rime dictionary directory. -/
theorem usage_error_amended (p : Platform) (pathFlag : Option Str)
    (hp : p.isWindows = false ∨ p.userHomeDir = none ∨ p.userHomeDir = some [])
    (hf : pathFlag = none) :
    mainStart p pathFlag = MainStart.usageExit ∧ usageExitCode ≠ 0 := by
  subst hf
  have hd : defaultPathValue p = [] := by
    unfold defaultPathValue
    rcases hp with h | h | h <;> simp [h]
  refine ⟨?_, by decide⟩
  simp [mainStart, resolvedPath, hd]

/-- C7 witness: the amended statement evaluated on a non-Windows
platform. -/
theorem usage_error_amended_witness :
    mainStart ⟨false, none⟩ none = MainStart.usageExit ∧ usageExitCode ≠ 0 :=
  usage_error_amended ⟨false, none⟩ none (Or.inl rfl) rfl

/-! ## Claim theorems: file replacement -/

theorem if_bool_true {α : Sort _} {a b : α} : (if (true : Bool) = true then a else b) = a :=
  if_pos rfl

theorem if_bool_false {α : Sort _} {a b : α} : (if (false : Bool) = true then a else b) = b :=
  if_neg (by decide)

theorem writePhase_success (d : Str) (fs : FS) (o : List Bool)
    (h : (writePhase d fs o).2 = true) : (writePhase d fs o).1.orig = some d := by
  unfold writePhase at h ⊢
  by_cases hw : nextOk o = true
  · rw [hw] at h ⊢
    rw [Bool.not_true, if_bool_false] at h ⊢
    by_cases hr : nextOk (restOracle o) = true
    · rw [hr, if_bool_true]
    · rw [Bool.eq_false_iff.mpr hr, if_bool_false]
  · rw [Bool.eq_false_iff.mpr hw, Bool.not_false, if_bool_true] at h
    simp at h

theorem overwriteFallback_success (fs : FS) (o : List Bool) (d : Str)
    (htmp : fs.tmp = some d)
    (h : (overwriteFallback fs o).2 = true) : (overwriteFallback fs o).1.orig = some d := by
  unfold overwriteFallback at h ⊢
  rw [htmp] at h ⊢
  by_cases hr : nextOk o = true
  · rw [hr] at h ⊢
    rw [show ((true && !(some d).isNone) = true) from rfl] at h ⊢
    rw [if_bool_true] at h ⊢
    by_cases ho : nextOk (restOracle o) = true
    · rw [ho, if_bool_true] at h ⊢
      exact writePhase_success d _ _ h
    · rw [Bool.eq_false_iff.mpr ho, if_bool_false] at h ⊢
      by_cases ho3 : nextOk (restOracle (restOracle (restOracle o))) = true
      · rw [ho3, if_bool_true] at h ⊢
        exact writePhase_success d _ _ h
      · rw [Bool.eq_false_iff.mpr ho3, if_bool_false] at h
        simp at h
  · rw [Bool.eq_false_iff.mpr hr] at h
    rw [show (false && !(some d).isNone) = false from rfl] at h
    rw [if_bool_false] at h
    by_cases hrem : nextOk (restOracle o) = true
    · rw [hrem, if_bool_true] at h
      simp at h
    · rw [Bool.eq_false_iff.mpr hrem, if_bool_false] at h
      simp at h

theorem replaceFile_success (data : Str) (fs : FS) (oracle : List Bool)
    (h : (replaceFile data fs oracle).2 = true) :
    (replaceFile data fs oracle).1.orig = some data := by
  unfold replaceFile at h ⊢
  by_cases h1 : nextOk oracle = true
  · rw [h1, Bool.not_true, if_bool_false] at h ⊢
    by_cases h2 : nextOk (restOracle oracle) = true
    · rw [h2, if_bool_true]
    · rw [Bool.eq_false_iff.mpr h2, if_bool_false] at h ⊢
      by_cases h3 : nextOk (restOracle (restOracle oracle)) = true
      · rw [h3, if_bool_true] at h ⊢
        by_cases h4 : nextOk (restOracle (restOracle (restOracle oracle))) = true
        · rw [h4, if_bool_true]
        · rw [Bool.eq_false_iff.mpr h4, if_bool_false] at h ⊢
          exact overwriteFallback_success _ _ data rfl h
      · rw [Bool.eq_false_iff.mpr h3, if_bool_false] at h ⊢
        by_cases h5 : nextOk (restOracle (restOracle (restOracle (restOracle oracle)))) = true
        · rw [h5, if_bool_true] at h ⊢
          by_cases h6 : nextOk (restOracle (restOracle (restOracle (restOracle
              (restOracle oracle))))) = true
          · rw [h6, if_bool_true]
          · rw [Bool.eq_false_iff.mpr h6, if_bool_false] at h ⊢
            exact overwriteFallback_success _ _ data rfl h
        · rw [Bool.eq_false_iff.mpr h5, if_bool_false] at h ⊢
          exact overwriteFallback_success _ _ data rfl h
  · rw [Bool.eq_false_iff.mpr h1, Bool.not_false, if_bool_true] at h
    simp at h

theorem overwriteFallback_unharmed (fs : FS) (o : List Bool) (d : Str)
    (htmp : fs.tmp = some d)
    (hd : destructiveFallback o = false)
    (hf : (overwriteFallback fs o).2 = false) :
    (overwriteFallback fs o).1.orig = fs.orig := by
  unfold overwriteFallback at hf ⊢
  unfold destructiveFallback at hd
  rw [htmp] at hf ⊢
  by_cases hr : nextOk o = true
  · rw [hr] at hf hd ⊢
    rw [show ((true && !(some d).isNone) = true) from rfl] at hf ⊢
    rw [if_bool_true] at hf hd ⊢
    by_cases ho : nextOk (restOracle o) = true
    · rw [ho, if_bool_true] at hd
      exact absurd hd (by decide)
    · rw [Bool.eq_false_iff.mpr ho, if_bool_false] at hf hd ⊢
      by_cases ho3 : nextOk (restOracle (restOracle (restOracle o))) = true
      · rw [ho3] at hd
        exact absurd hd (by decide)
      · rw [Bool.eq_false_iff.mpr ho3, if_bool_false] at hf ⊢
  · rw [Bool.eq_false_iff.mpr hr] at hf hd ⊢
    rw [show (false && !(some d).isNone) = false from rfl] at hf ⊢
    rw [if_bool_false] at hf hd ⊢
    by_cases hrem : nextOk (restOracle o) = true
    · rw [hrem] at hd
      exact absurd hd (by decide)
    · rw [Bool.eq_false_iff.mpr hrem, if_bool_false] at hf ⊢

theorem replaceFile_unharmed (data : Str) (fs : FS) (oracle : List Bool)
    (hd : destructiveOp oracle = false)
    (hf : (replaceFile data fs oracle).2 = false) :
    (replaceFile data fs oracle).1.orig = fs.orig := by
  unfold replaceFile at hf ⊢
  unfold destructiveOp at hd
  by_cases h1 : nextOk oracle = true
  · rw [h1, Bool.not_true, if_bool_false] at hf hd ⊢
    by_cases h2 : nextOk (restOracle oracle) = true
    · rw [h2, if_bool_true] at hf
      simp at hf
    · rw [Bool.eq_false_iff.mpr h2, if_bool_false] at hf hd ⊢
      by_cases h3 : nextOk (restOracle (restOracle oracle)) = true
      · rw [h3, if_bool_true] at hd
        exact absurd hd (by decide)
      · rw [Bool.eq_false_iff.mpr h3, if_bool_false] at hf hd ⊢
        by_cases h4 : nextOk (restOracle (restOracle (restOracle (restOracle oracle)))) = true
        · rw [h4, if_bool_true] at hd
          exact absurd hd (by decide)
        · rw [Bool.eq_false_iff.mpr h4, if_bool_false] at hf hd ⊢
          exact overwriteFallback_unharmed _ _ data rfl hd hf
  · rw [Bool.eq_false_iff.mpr h1, Bool.not_false, if_bool_true] at hf hd ⊢

/-- C3 counterexample: a failure trace of the replacement protocol that
leaves the original file missing: the temporary write succeeds, the atomic
rename fails, the delete of the original succeeds, the retried rename
fails, reading the temporary succeeds, and both truncating opens fail.
The protocol reports failure while the target path no longer holds the
original content, refuting that every failure path leaves the original
untouched. -/
theorem replace_failsafe_counterexample :
    ¬ (∀ (data : Str) (fs : FS) (oracle : List Bool),
        (replaceFile data fs oracle).2 = false →
          (replaceFile data fs oracle).1.orig = fs.orig) := by
  intro h
  exact absurd
    (h "n".toList ⟨some "o".toList, none⟩
      [true, false, true, false, true, false, false, false] (by decide))
    (by decide)

/-- C3 amended: on every success path the target file afterwards holds
exactly the new content; when the atomic rename succeeds, the outcome is
exactly the new content at the target with the temporary gone and nothing
else ever mutated; and every failure path in which no delete of the target
(first, retried, or the one evaluated while formatting the failed-read
error) and no truncating open ever succeeds (`destructiveOp` false) leaves
the original untouched.  However (see the counterexample) once a delete or
a truncating open has succeeded, a subsequent failure can leave the
original missing or truncated. -/
theorem replace_amended :
    (∀ (data : Str) (fs : FS) (oracle : List Bool),
        (replaceFile data fs oracle).2 = true →
          (replaceFile data fs oracle).1.orig = some data) ∧
    (∀ (data : Str) (fs : FS) (o : List Bool),
        replaceFile data fs (true :: true :: o) =
          ({ orig := some data, tmp := none }, true)) ∧
    (∀ (data : Str) (fs : FS) (oracle : List Bool),
        destructiveOp oracle = false →
          (replaceFile data fs oracle).2 = false →
            (replaceFile data fs oracle).1.orig = fs.orig) :=
  ⟨replaceFile_success, fun _ _ _ => rfl, replaceFile_unharmed⟩

/-- C3 witness: the amended statement applied to a concrete successful
trace, and to a concrete non-destructive failing trace (read of the
temporary succeeds, both truncating opens fail) that leaves the original
untouched. -/
theorem replace_amended_witness :
    ((replaceFile "n".toList ⟨some "o".toList, none⟩ [true, false, true, true]).2 = true ∧
      (replaceFile "n".toList ⟨some "o".toList, none⟩ [true, false, true, true]).1.orig =
        some "n".toList) ∧
    (destructiveOp [true, false, false, false, false, true, false, false, false] = false ∧
      (replaceFile "n".toList ⟨some "o".toList, none⟩
          [true, false, false, false, false, true, false, false, false]).2 = false ∧
      (replaceFile "n".toList ⟨some "o".toList, none⟩
          [true, false, false, false, false, true, false, false, false]).1.orig =
        some "o".toList) :=
  ⟨⟨by decide,
      replace_amended.1 "n".toList ⟨some "o".toList, none⟩ [true, false, true, true]
        (by decide)⟩,
    by decide,
    by decide,
    replace_amended.2.2 "n".toList ⟨some "o".toList, none⟩
      [true, false, false, false, false, true, false, false, false] (by decide) (by decide)⟩
